import Mathlib

/-!
Verification of the ranked hot-search term store
(`HotSearchSQLiteService` in the repository).

The service is embedded shallowly:

* The durable (SQLite) backend is modelled as a list of table rows kept in
  rowid (insertion) order together with the next AUTOINCREMENT id.
* The SQL statements of the source are translated operation by operation:
  the `INSERT ... ON CONFLICT(term) DO UPDATE` upsert, the
  `ORDER BY score DESC, last_searched DESC` ranked reads, the
  capacity-cleanup `DELETE ... NOT IN (SELECT ... LIMIT 50)`, the
  password-checked `DELETE` statements and the stats queries.
  SQLite leaves the relative order of rows that tie on all `ORDER BY`
  keys unspecified; the model resolves this, deterministically, by a
  stable sort, i.e. ties keep table (rowid) order.
* `Date.now()` is an oracle: every recording operation carries its
  timestamp explicitly.
* A `record` call is an async function whose promise always resolves
  (every throw is caught), which the model renders as a `RecOutcome`
  result; the admin operations return the `{ success, message }` objects
  of the source verbatim.
-/

namespace HotSearch

/-- One row of the `hot_searches` table:
`id INTEGER PRIMARY KEY AUTOINCREMENT, term TEXT UNIQUE, score INTEGER,
last_searched INTEGER, created_at INTEGER`. -/
structure Row where
  id : Nat
  term : String
  score : Nat
  last_searched : Nat
  created_at : Nat
deriving Repr, DecidableEq

/-- The durable backend state: the table rows in rowid order plus the next
AUTOINCREMENT id. -/
structure DB where
  rows : List Row
  nextId : Nat
deriving Repr, DecidableEq

/-- The `HotSearchItem` interface of the source. -/
structure HotSearchItem where
  term : String
  score : Nat
  lastSearched : Nat
  createdAt : Nat
deriving Repr, DecidableEq

/-- The `{ success, message }` result object of the admin operations. -/
structure OpResult where
  success : Bool
  message : String
deriving Repr, DecidableEq

/-- The `HotSearchStats` interface of the source. -/
structure HotSearchStats where
  total : Nat
  topTerms : List HotSearchItem
deriving Repr, DecidableEq

/-- Observable outcome of an async call returning `Promise<void>`:
the promise either resolves or rejects with an error. -/
inductive RecOutcome where
  | resolved : RecOutcome
  | rejected : String → RecOutcome
deriving Repr, DecidableEq

/-- `this.MAX_ENTRIES = 50`. -/
def MAX_ENTRIES : Nat := 50

/-- The empty table, as created by `initDatabase`. -/
def emptyDB : DB := ⟨[], 1⟩

/-- Projection of a table row to the `HotSearchItem` shape returned by the
queries (`SELECT term, score, last_searched as lastSearched, created_at as
createdAt`). -/
def Row.toItem (r : Row) : HotSearchItem :=
  ⟨r.term, r.score, r.last_searched, r.created_at⟩

/-! ### String primitives

`String.prototype.trim` and `String.prototype.toLowerCase` are modelled
over the character list of the string. -/

/-- The characters removed by JavaScript `String.prototype.trim`
(ECMAScript WhiteSpace and LineTerminator code points). -/
def jsWhitespace (c : Char) : Bool :=
  let n := c.toNat
  (9 ≤ n && n ≤ 13) || n == 32 || n == 160 || n == 5760 ||
  (8192 ≤ n && n ≤ 8202) || n == 8232 || n == 8233 ||
  n == 8239 || n == 8287 || n == 12288 || n == 65279

/-- JavaScript `term.trim()`: leading and trailing whitespace removed. -/
def jsTrim (s : String) : List Char :=
  ((s.data.dropWhile jsWhitespace).reverse.dropWhile jsWhitespace).reverse

/-- Case folding of one character. The deny-list regexes carry the `i`
flag; without the `u` flag JavaScript canonicalises via `toUpperCase`,
which on the pattern alphabet (ASCII letters and CJK characters) is
exactly ASCII folding. The model folds to lowercase. -/
def asciiLower (c : Char) : Char :=
  if 'A' ≤ c && c ≤ 'Z' then Char.ofNat (c.toNat + 32) else c

/-- The lowercased character sequence of a string. -/
def lowerData (s : String) : List Char :=
  s.data.map asciiLower

/-! ### The content filter (`isForbidden`) -/

/-- `pat` is a character-list prefix of `s`. -/
def startsWithCL : List Char → List Char → Bool
  | [], _ => true
  | _ :: _, [] => false
  | a :: as, b :: bs => a == b && startsWithCL as bs

/-- `pat` occurs as a contiguous character run inside `s`
(JavaScript `RegExp.test` with a literal pattern is substring search). -/
def containsCL (pat : List Char) : List Char → Bool
  | [] => startsWithCL pat []
  | b :: bs => startsWithCL pat (b :: bs) || containsCL pat bs

/-- The literal alternatives of the two deny-list regexes
`/政治|暴力|色情|赌博|毒品/i` and `/fuck|shit|bitch/i`. -/
def forbiddenPatterns : List String :=
  ["政治", "暴力", "色情", "赌博", "毒品", "fuck", "shit", "bitch"]

/-- `isForbidden`: some deny-listed alternative matches the term; the `i`
flag makes the match case-insensitive, modelled by lowercasing the term
(the patterns are already lowercase, and case folding does not affect the
CJK alternatives). -/
def isForbidden (term : String) : Bool :=
  forbiddenPatterns.any (fun p => containsCL p.data (lowerData term))

/-! ### Ranking order -/

/-- `a` sorts strictly before `b` under
`ORDER BY score DESC, last_searched DESC`. -/
def rankBefore (a b : Row) : Bool :=
  b.score < a.score || (a.score == b.score && b.last_searched < a.last_searched)

/-- Stable insertion into a ranked list: `r` is placed after every element
that sorts strictly before it and before the first element that does not,
so rows tying on both keys keep their relative (rowid) order. -/
def insertRanked (r : Row) : List Row → List Row
  | [] => [r]
  | x :: xs => if rankBefore x r then x :: insertRanked r xs else r :: x :: xs

/-- The ranked read order: a stable sort of the table by
`score DESC, last_searched DESC` (ties keep rowid order). -/
def sortRanked (l : List Row) : List Row :=
  l.foldr insertRanked []

/-! ### Operations of `HotSearchSQLiteService` (durable backend) -/

/-- The SQL upsert of `recordSearch`:
`INSERT INTO hot_searches (term, score, last_searched, created_at)
VALUES (?, 1, ?, ?) ON CONFLICT(term) DO UPDATE SET score = score + 1,
last_searched = ?`, with `now` bound to every timestamp parameter. -/
def upsert (db : DB) (term : String) (now : Nat) : DB :=
  if db.rows.any (fun r => r.term == term) then
    { db with rows := db.rows.map (fun r =>
        if r.term == term then { r with score := r.score + 1, last_searched := now } else r) }
  else
    { rows := db.rows ++ [⟨db.nextId, term, 1, now, now⟩], nextId := db.nextId + 1 }

/-- `cleanupOldEntries`: `DELETE FROM hot_searches WHERE id NOT IN
(SELECT id FROM hot_searches ORDER BY score DESC, last_searched DESC
LIMIT ?)` with `?` = `MAX_ENTRIES`. -/
def cleanupOldEntries (db : DB) : DB :=
  let keep := ((sortRanked db.rows).take MAX_ENTRIES).map Row.id
  { db with rows := db.rows.filter (fun r => keep.contains r.id) }

/-- `recordSearch(term)`: empty or whitespace-only terms return at once
(`if (!term || term.trim().length === 0) return;`), forbidden terms are
silently discarded, otherwise the upsert runs followed by the capacity
cleanup. All throws are caught, so the promise always resolves. -/
def recordSearch (db : DB) (term : String) (now : Nat) : DB × RecOutcome :=
  if (jsTrim term).length == 0 then (db, .resolved)
  else if isForbidden term then (db, .resolved)
  else (cleanupOldEntries (upsert db term now), .resolved)

/-- SQLite `LIMIT n` semantics: a negative `n` means no limit at all,
otherwise at most `n` rows are returned. -/
def sqliteLimit (n : Int) (l : List Row) : List Row :=
  if n < 0 then l else l.take n.toNat

/-- `getHotSearches(limit)`: ranked `SELECT` with
`LIMIT Math.min(limit, MAX_ENTRIES)`. -/
def getHotSearches (db : DB) (limit : Int) : List HotSearchItem :=
  (sqliteLimit (min limit (MAX_ENTRIES : Int)) (sortRanked db.rows)).map Row.toItem

/-- `clearHotSearches(password)`: compares against
`process.env.HOT_SEARCH_PASSWORD || 'admin123'` (the environment value is
the `correctPassword` parameter); on a match `DELETE FROM hot_searches`
removes every row and a fixed success message is returned. -/
def clearHotSearches (db : DB) (password correctPassword : String) : DB × OpResult :=
  if password != correctPassword then (db, ⟨false, "密码错误"⟩)
  else ({ db with rows := [] }, ⟨true, "热搜记录已清除"⟩)

/-- `deleteHotSearch(term, password)`: same credential check, then
`DELETE FROM hot_searches WHERE term = ?`; `result.changes` decides
between the deleted message and the not-found message. -/
def deleteHotSearch (db : DB) (term password correctPassword : String) : DB × OpResult :=
  if password != correctPassword then (db, ⟨false, "密码错误"⟩)
  else
    let rows' := db.rows.filter (fun r => r.term != term)
    if rows'.length < db.rows.length then
      ({ db with rows := rows' }, ⟨true, "热搜词 \"" ++ term ++ "\" 已删除"⟩)
    else
      (db, ⟨false, "热搜词不存在"⟩)

/-- `getStats()`, parameterised by the outcomes of its two backend reads
(the `COUNT(*)` row, which may be absent, and the top-10 ranked rows): any
throw inside the `try` is caught and yields `{ total: 0, topTerms: [] }`;
an absent count row defaults to 0 via `countResult?.total || 0`. -/
def getStats (countRes : Except String (Option Nat))
    (topRes : Except String (List Row)) : HotSearchStats :=
  match countRes with
  | .error _ => ⟨0, []⟩
  | .ok c =>
    match topRes with
    | .error _ => ⟨0, []⟩
    | .ok rows => ⟨c.getD 0, rows.map Row.toItem⟩

/-- `getStats()` when both backend reads succeed on table `db`:
the count row is `COUNT(*)` and the top rows are the ranked top 10. -/
def getStatsOk (db : DB) : HotSearchStats :=
  getStats (.ok (some db.rows.length)) (.ok ((sortRanked db.rows).take 10))

/-! ### The volatile in-memory fallback (`initMemoryFallback`)

When `better-sqlite3` fails to load, `this.db` is replaced by a
duck-typed object holding a `memoryStore` map. Its `prepare()` method
returns statement objects whose `run`/`get` closures evaluate
`this.db.memoryStore`; at that point `this` is the duck-typed object
itself (the receiver of the `prepare()` call), which has no `db`
property, so every such call throws a `TypeError` that the caller's
`try`/`catch` swallows. Independently of the `this` binding,
`getHotSearches` invokes `stmt.all(...)`, a method the fallback's
`prepare()` never provides, so the ranked read throws in any case, and
`recordSearch` passes `now` where `run` expects the score. The map is
therefore never successfully read or written; the state below is the
`memoryStore` contents, and the definitions record the caught-exception
behaviour of each operation in fallback mode. -/

/-- The `memoryStore` map of the fallback (term keyed items). -/
abbrev FBState := List (String × HotSearchItem)

/-- The fallback's `memoryStore` starts empty. -/
def fbEmpty : FBState := []

/-- `recordSearch` in fallback mode: validation and filter behave as
usual; then `stmt.run(term, now, now, now)` throws `TypeError`
(`this.db` is `undefined` inside the duck-typed object), the `catch`
logs it, and the promise resolves with the map unchanged. -/
def fbRecordSearch (st : FBState) (term : String) (_now : Nat) : FBState × RecOutcome :=
  if (jsTrim term).length == 0 then (st, .resolved)
  else if isForbidden term then (st, .resolved)
  else (st, .resolved)

/-- `getHotSearches` in fallback mode: `stmt.all` is `undefined`
(the fallback's `prepare()` only supplies `run` and `get`), the call
throws, and the `catch` returns `[]`. -/
def fbGetHotSearches (_st : FBState) (_limit : Int) : List HotSearchItem :=
  []

/-- `deleteHotSearch` in fallback mode: a wrong password short-circuits
as in the durable case; with the right password `stmt.run(term)` throws
`TypeError`, and the `catch` returns the generic failure. -/
def fbDeleteHotSearch (st : FBState) (_term password correctPassword : String) :
    FBState × OpResult :=
  if password != correctPassword then (st, ⟨false, "密码错误"⟩)
  else (st, ⟨false, "删除失败"⟩)

/-- `clearHotSearches` in fallback mode: with the right password
`stmt.run()` throws `TypeError`, and the `catch` returns the generic
failure. -/
def fbClearHotSearches (st : FBState) (password correctPassword : String) :
    FBState × OpResult :=
  if password != correctPassword then (st, ⟨false, "密码错误"⟩)
  else (st, ⟨false, "清除失败"⟩)

/-- `getStats` in fallback mode: `countStmt.get()` throws `TypeError`,
caught, yielding `{ total: 0, topTerms: [] }`. -/
def fbGetStats (_st : FBState) : HotSearchStats :=
  ⟨0, []⟩

/-! ### Operation sequences against the durable backend -/

/-- One call of the service API; the `Date.now()` value observed by a
recording is carried explicitly. -/
inductive Op where
  | record (term : String) (now : Nat) : Op
  | listTop (limit : Int) : Op
  | deleteTerm (term : String) (password : String) : Op
  | clearAllOp (password : String) : Op
deriving Repr

/-- State transition of one operation on the durable backend; `env` is
`process.env.HOT_SEARCH_PASSWORD || 'admin123'`. Reads leave the table
unchanged. -/
def applyOp (env : String) (db : DB) : Op → DB
  | .record t now => (recordSearch db t now).1
  | .listTop _ => db
  | .deleteTerm t pw => (deleteHotSearch db t pw env).1
  | .clearAllOp pw => (clearHotSearches db pw env).1

/-- The table after running a sequence of operations from the freshly
initialised (empty) store. -/
def runOps (env : String) (ops : List Op) : DB :=
  ops.foldl (applyOp env) emptyDB

/-- Recording the same term once per timestamp in `times`. -/
def recordMany (db : DB) (term : String) (times : List Nat) : DB :=
  times.foldl (fun d t => (recordSearch d term t).1) db

/-! ### Lemmas -/

theorem insertRanked_perm (r : Row) (l : List Row) : (insertRanked r l).Perm (r :: l) := by
  induction l with
  | nil => exact List.Perm.refl _
  | cons x xs ih =>
    simp only [insertRanked]
    split
    · exact (ih.cons x).trans (List.Perm.swap r x xs)
    · exact List.Perm.refl _

theorem sortRanked_perm (l : List Row) : (sortRanked l).Perm l := by
  induction l with
  | nil => exact List.Perm.refl _
  | cons x xs ih =>
    exact (insertRanked_perm x (sortRanked xs)).trans (ih.cons x)

theorem rankBefore_asymm {a b : Row} (h : rankBefore a b = true) :
    rankBefore b a = false := by
  simp only [rankBefore, Bool.or_eq_true, Bool.and_eq_true, decide_eq_true_eq,
    beq_iff_eq, Bool.or_eq_false_iff, Bool.and_eq_false_iff,
    decide_eq_false_iff_not, beq_eq_false_iff_ne, ne_eq, not_lt] at *
  omega

theorem rankBefore_neg_trans {a b c : Row} (h1 : rankBefore b a = false)
    (h2 : rankBefore c b = false) : rankBefore c a = false := by
  simp only [rankBefore, Bool.or_eq_false_iff, Bool.and_eq_false_iff,
    decide_eq_false_iff_not, beq_eq_false_iff_ne, ne_eq, not_lt] at *
  omega




/-- The non-strict ranking relation: `a` may legitimately appear before
`b` in ranked output. -/
def RankedOK (a b : Row) : Prop :=
  rankBefore b a = false

theorem pairwise_insertRanked {r : Row} {l : List Row}
    (h : l.Pairwise RankedOK) :
    (insertRanked r l).Pairwise RankedOK := by
  induction l with
  | nil => simp [insertRanked]
  | cons x xs ih =>
    rcases List.pairwise_cons.mp h with ⟨hx, hxs⟩
    simp only [insertRanked]
    split
    case isTrue hbefore =>
      refine List.pairwise_cons.mpr ⟨?_, ih hxs⟩
      intro y hy
      have hy' : y = r ∨ y ∈ xs := by
        have := (insertRanked_perm r xs).mem_iff.mp hy
        simpa using this
      rcases hy' with rfl | hy'
      · exact rankBefore_asymm hbefore
      · exact hx y hy'
    case isFalse hnot =>
      refine List.pairwise_cons.mpr ⟨?_, h⟩
      intro y hy
      have hxr : rankBefore x r = false := by
        revert hnot
        cases rankBefore x r <;> simp
      rcases List.mem_cons.mp hy with rfl | hy'
      · exact hxr
      · exact rankBefore_neg_trans hxr (hx y hy')

theorem sortRanked_pairwise (l : List Row) :
    (sortRanked l).Pairwise RankedOK := by
  induction l with
  | nil => simp [sortRanked]
  | cons x xs ih =>
    exact pairwise_insertRanked ih




theorem filter_keep_of_split (t d : List Row)
    (hn : (((t ++ d)).map Row.id).Nodup) :
    (t ++ d).filter (fun r => (t.map Row.id).contains r.id) = t := by
  have hdisj : (t.map Row.id).Disjoint (d.map Row.id) := by
    rw [List.map_append] at hn
    exact (List.nodup_append.mp hn).2.2
  rw [List.filter_append]
  have ha : t.filter (fun r => (t.map Row.id).contains r.id) = t := by
    rw [List.filter_eq_self]
    intro r hr
    exact List.elem_iff.mpr (List.mem_map_of_mem Row.id hr)
  have hb : d.filter (fun r => (t.map Row.id).contains r.id) = [] := by
    rw [List.filter_eq_nil_iff]
    intro r hr hcontra
    exact hdisj (List.elem_iff.mp hcontra) (List.mem_map_of_mem Row.id hr)
  rw [ha, hb, List.append_nil]

theorem cleanupOldEntries_perm {db : DB} (h : (db.rows.map Row.id).Nodup) :
    ((cleanupOldEntries db).rows).Perm ((sortRanked db.rows).take MAX_ENTRIES) := by
  have hperm : (sortRanked db.rows).Perm db.rows := sortRanked_perm db.rows
  have hsn : ((sortRanked db.rows).map Row.id).Nodup := ((hperm.map Row.id).nodup_iff).mpr h
  have h1 : ((db.rows).filter
      (fun r => (((sortRanked db.rows).take MAX_ENTRIES).map Row.id).contains r.id)).Perm
      ((sortRanked db.rows).filter
      (fun r => (((sortRanked db.rows).take MAX_ENTRIES).map Row.id).contains r.id)) :=
    (hperm.filter _).symm
  have h2 := filter_keep_of_split ((sortRanked db.rows).take MAX_ENTRIES)
      ((sortRanked db.rows).drop MAX_ENTRIES)
      (by rw [List.take_append_drop]; exact hsn)
  rw [List.take_append_drop] at h2
  rw [h2] at h1
  exact h1




/-- Structural invariant of reachable tables: rowids strictly increase in
table order, every rowid is below the AUTOINCREMENT counter, and terms
are unique (the `UNIQUE` column constraint). -/
def Inv (db : DB) : Prop :=
  db.rows.Pairwise (fun a b => a.id < b.id) ∧
  (∀ r ∈ db.rows, r.id < db.nextId) ∧
  (db.rows.map Row.term).Nodup

theorem Inv.ids_nodup {db : DB} (h : Inv db) : (db.rows.map Row.id).Nodup := by
  rw [List.Nodup, List.pairwise_map]
  exact h.1.imp (fun hlt => Nat.ne_of_lt hlt)

theorem inv_emptyDB : Inv emptyDB := by
  simp [Inv, emptyDB]

theorem inv_upsert {db : DB} (h : Inv db) (term : String) (now : Nat) :
    Inv (upsert db term now) := by
  obtain ⟨h1, h2, h3⟩ := h
  unfold upsert
  split
  case isTrue hex =>
    refine ⟨?_, ?_, ?_⟩
    · rw [List.pairwise_map]
      refine h1.imp ?_
      intro a b hab
      by_cases ha : a.term == term <;> by_cases hb : b.term == term <;> simp [ha, hb, hab]
    · intro r hr
      rcases List.mem_map.mp hr with ⟨r₀, hr₀, rfl⟩
      have := h2 r₀ hr₀
      by_cases h0 : r₀.term == term <;> simp [h0, this]
    · have : (db.rows.map (fun r =>
          if r.term == term then { r with score := r.score + 1, last_searched := now } else r)).map Row.term
          = db.rows.map Row.term := by
        rw [List.map_map]
        refine List.map_congr_left ?_
        intro r _
        by_cases h0 : r.term = term <;> simp [h0]
      rw [this]
      exact h3
  case isFalse hex =>
    have hnotmem : term ∉ db.rows.map Row.term := by
      intro hmem
      rcases List.mem_map.mp hmem with ⟨r, hr, hrt⟩
      exact hex (List.any_eq_true.mpr ⟨r, hr, by simp [hrt]⟩)
    refine ⟨?_, ?_, ?_⟩
    · rw [List.pairwise_append]
      exact ⟨h1, List.pairwise_singleton _ _, fun a ha b hb => by
        rcases List.mem_singleton.mp hb with rfl
        exact h2 a ha⟩
    · intro r hr
      rcases List.mem_append.mp hr with hr | hr
      · exact Nat.lt_succ_of_lt (h2 r hr)
      · rcases List.mem_singleton.mp hr with rfl
        exact Nat.lt_succ_self _
    · rw [List.map_append, List.nodup_append]
      refine ⟨h3, List.nodup_singleton _, ?_⟩
      intro a ha hb
      rcases List.mem_singleton.mp hb with rfl
      exact hnotmem ha

theorem inv_sublist {db : DB} (h : Inv db) {rows' : List Row}
    (hs : rows'.Sublist db.rows) : Inv { db with rows := rows' } := by
  obtain ⟨h1, h2, h3⟩ := h
  exact ⟨h1.sublist hs, fun r hr => h2 r (hs.mem hr), h3.sublist (hs.map Row.term)⟩

theorem inv_cleanupOldEntries {db : DB} (h : Inv db) : Inv (cleanupOldEntries db) := by
  exact inv_sublist h (List.filter_sublist _)

theorem inv_recordSearch {db : DB} (h : Inv db) (term : String) (now : Nat) :
    Inv (recordSearch db term now).1 := by
  unfold recordSearch
  split
  · exact h
  split
  · exact h
  · exact inv_cleanupOldEntries (inv_upsert h term now)

theorem inv_applyOp {db : DB} (h : Inv db) (env : String) (op : Op) :
    Inv (applyOp env db op) := by
  cases op with
  | record t now => exact inv_recordSearch h t now
  | listTop _ => exact h
  | deleteTerm t pw =>
    show Inv (deleteHotSearch db t pw env).1
    unfold deleteHotSearch
    split
    · exact h
    dsimp only
    split
    · exact inv_sublist h (List.filter_sublist _)
    · exact h
  | clearAllOp pw =>
    show Inv (clearHotSearches db pw env).1
    unfold clearHotSearches
    split
    · exact h
    · exact inv_sublist h (List.nil_sublist _)

theorem inv_runOps (env : String) (ops : List Op) : Inv (runOps env ops) := by
  suffices hgen : ∀ db, Inv db → Inv (ops.foldl (applyOp env) db) by
    exact hgen emptyDB inv_emptyDB
  induction ops with
  | nil => intro db h; exact h
  | cons op ops ih => intro db h; exact ih _ (inv_applyOp h env op)




theorem length_cleanupOldEntries {db : DB} (h : (db.rows.map Row.id).Nodup) :
    (cleanupOldEntries db).rows.length ≤ MAX_ENTRIES := by
  rw [(cleanupOldEntries_perm h).length_eq, List.length_take]
  exact min_le_left _ _

theorem length_recordSearch {db : DB} (h : Inv db) (term : String) (now : Nat)
    (hlen : db.rows.length ≤ MAX_ENTRIES) :
    (recordSearch db term now).1.rows.length ≤ MAX_ENTRIES := by
  unfold recordSearch
  split
  · exact hlen
  split
  · exact hlen
  · exact length_cleanupOldEntries (inv_upsert h term now).ids_nodup

theorem length_applyOp {db : DB} (h : Inv db) (env : String) (op : Op)
    (hlen : db.rows.length ≤ MAX_ENTRIES) :
    (applyOp env db op).rows.length ≤ MAX_ENTRIES := by
  cases op with
  | record t now => exact length_recordSearch h t now hlen
  | listTop _ => exact hlen
  | deleteTerm t pw =>
    show (deleteHotSearch db t pw env).1.rows.length ≤ MAX_ENTRIES
    unfold deleteHotSearch
    split
    · exact hlen
    dsimp only
    split
    · exact le_trans (List.length_filter_le _ _) hlen
    · exact hlen
  | clearAllOp pw =>
    show (clearHotSearches db pw env).1.rows.length ≤ MAX_ENTRIES
    unfold clearHotSearches
    split
    · exact hlen
    · simp [MAX_ENTRIES]

theorem runOps_length (env : String) (ops : List Op) :
    (runOps env ops).rows.length ≤ MAX_ENTRIES := by
  suffices hgen : ∀ db, Inv db → db.rows.length ≤ MAX_ENTRIES →
      Inv (ops.foldl (applyOp env) db) ∧
      (ops.foldl (applyOp env) db).rows.length ≤ MAX_ENTRIES by
    exact (hgen emptyDB inv_emptyDB (by simp [emptyDB, MAX_ENTRIES])).2
  induction ops with
  | nil => intro db h hlen; exact ⟨h, hlen⟩
  | cons op ops ih =>
    intro db h hlen
    exact ih _ (inv_applyOp h env op) (length_applyOp h env op hlen)

/-- All stored terms passed the content filter. -/
theorem stored_not_forbidden (env : String) (ops : List Op) :
    ∀ r ∈ (runOps env ops).rows, isForbidden r.term = false := by
  suffices hgen : ∀ db, (∀ r ∈ db.rows, isForbidden r.term = false) →
      ∀ r ∈ (ops.foldl (applyOp env) db).rows, isForbidden r.term = false by
    exact hgen emptyDB (by simp [emptyDB])
  induction ops with
  | nil => intro db h; exact h
  | cons op ops ih =>
    intro db h
    refine ih _ ?_
    cases op with
    | record t now =>
      show ∀ r ∈ (recordSearch db t now).1.rows, isForbidden r.term = false
      unfold recordSearch
      split
      · exact h
      split
      · exact h
      case isFalse hforb =>
        have hforb' : isForbidden t = false := by
          revert hforb
          cases isForbidden t <;> simp
        intro r hr
        have hr' : r ∈ (upsert db t now).rows := (List.filter_sublist _).mem hr
        unfold upsert at hr'
        revert hr'
        split
        · intro hr'
          rcases List.mem_map.mp hr' with ⟨r₀, hr₀, rfl⟩
          have hterm : (if (r₀.term == t) = true then
              { r₀ with score := r₀.score + 1, last_searched := now } else r₀).term = r₀.term := by
            split <;> rfl
          rw [hterm]
          exact h r₀ hr₀
        · intro hr'
          rcases List.mem_append.mp hr' with hr' | hr'
          · exact h r hr'
          · rcases List.mem_singleton.mp hr' with rfl
            exact hforb'
    | listTop _ => exact h
    | deleteTerm t pw =>
      show ∀ r ∈ (deleteHotSearch db t pw env).1.rows, isForbidden r.term = false
      unfold deleteHotSearch
      split
      · exact h
      dsimp only
      split
      · intro r hr
        exact h r ((List.filter_sublist _).mem hr)
      · exact h
    | clearAllOp pw =>
      show ∀ r ∈ (clearHotSearches db pw env).1.rows, isForbidden r.term = false
      unfold clearHotSearches
      split
      · exact h
      · intro r hr
        simp at hr




theorem recordSearch_singleton (i n k last c t : Nat) (term : String)
    (h1 : (jsTrim term).length ≠ 0) (h2 : isForbidden term = false) :
    recordSearch ⟨[⟨i, term, k, last, c⟩], n⟩ term t =
      (⟨[⟨i, term, k + 1, t, c⟩], n⟩, .resolved) := by
  unfold recordSearch
  rw [if_neg (by simpa using h1), if_neg (by simp [h2])]
  have hup : upsert ⟨[⟨i, term, k, last, c⟩], n⟩ term t = ⟨[⟨i, term, k + 1, t, c⟩], n⟩ := by
    unfold upsert
    rw [if_pos (by simp)]
    simp
  rw [hup]
  unfold cleanupOldEntries
  simp [sortRanked, insertRanked, MAX_ENTRIES]

/-- The last element of `times`, defaulting to `d`; this is the
`Date.now()` value of the final recording. -/
def lastTime (d : Nat) (times : List Nat) : Nat :=
  times.foldl (fun _ t => t) d

theorem lastTime_eq_getLast (t : Nat) (ts : List Nat) :
    lastTime t ts = (t :: ts).getLast (by simp) := by
  induction ts generalizing t with
  | nil => rfl
  | cons a l ih =>
    rw [show lastTime t (a :: l) = lastTime a l from rfl, ih]
    exact (List.getLast_cons (by simp)).symm

theorem recordMany_singleton (i n k last c : Nat) (term : String) (times : List Nat)
    (h1 : (jsTrim term).length ≠ 0) (h2 : isForbidden term = false) :
    recordMany ⟨[⟨i, term, k, last, c⟩], n⟩ term times =
      ⟨[⟨i, term, k + times.length, lastTime last times, c⟩], n⟩ := by
  induction times generalizing k last with
  | nil => simp [recordMany, lastTime]
  | cons t ts ih =>
    have hstep := recordSearch_singleton i n k last c t term h1 h2
    show recordMany (recordSearch ⟨[⟨i, term, k, last, c⟩], n⟩ term t).1 term ts = _
    rw [hstep]
    rw [ih (k + 1) t]
    have hlen : k + 1 + ts.length = k + (t :: ts).length := by simp; omega
    have hlast : lastTime t ts = lastTime last (t :: ts) := rfl
    rw [hlen, hlast]




theorem sqliteLimit_sublist (n : Int) (l : List Row) : (sqliteLimit n l).Sublist l := by
  unfold sqliteLimit
  split
  · exact List.Sublist.refl l
  · exact List.take_sublist _ _

theorem mem_getHotSearches {db : DB} {limit : Int} {it : HotSearchItem}
    (h : it ∈ getHotSearches db limit) : ∃ r ∈ db.rows, it = r.toItem := by
  rcases List.mem_map.mp h with ⟨r, hr, rfl⟩
  have hr' : r ∈ sortRanked db.rows := (sqliteLimit_sublist _ _).mem hr
  exact ⟨r, (sortRanked_perm db.rows).mem_iff.mp hr', rfl⟩

theorem length_getHotSearches_le (db : DB) (limit : Int)
    (hdb : db.rows.length ≤ MAX_ENTRIES) :
    (getHotSearches db limit).length ≤ MAX_ENTRIES := by
  unfold getHotSearches sqliteLimit
  rw [List.length_map]
  split
  case isTrue h =>
    rw [(sortRanked_perm db.rows).length_eq]
    exact hdb
  case isFalse h =>
    rw [List.length_take]
    refine le_trans (min_le_right _ _) ?_
    rw [(sortRanked_perm db.rows).length_eq]
    exact hdb

theorem getHotSearches_pairwise (db : DB) (limit : Int) :
    (getHotSearches db limit).Pairwise
      (fun a b => b.score < a.score ∨ (a.score = b.score ∧ b.lastSearched ≤ a.lastSearched)) := by
  have hrows : (sqliteLimit (min limit (MAX_ENTRIES : Int)) (sortRanked db.rows)).Pairwise
      RankedOK :=
    (sortRanked_pairwise db.rows).sublist (sqliteLimit_sublist _ _)
  unfold getHotSearches
  rw [List.pairwise_map]
  refine hrows.imp ?_
  intro a b hab
  unfold RankedOK rankBefore at hab
  simp only [Bool.or_eq_false_iff, Bool.and_eq_false_iff, decide_eq_false_iff_not,
    beq_eq_false_iff_ne, ne_eq, not_lt] at hab
  unfold Row.toItem
  dsimp only
  omega

/-! ### Claim theorems -/


/-- **C1.** Capacity invariant: after every sequence of
record/list/delete/clearAll operations from the empty store the table
holds at most `MAX_ENTRIES` (50) records; moreover, after any accepted
`recordSearch` on such a state the surviving rows are exactly the top
`MAX_ENTRIES` of the post-upsert table in ranking order (score
descending, last-seen descending; rows tying on both keys are ordered by
rowid, which SQLite leaves unspecified), and no evicted row strictly
outranks a survivor. -/
theorem capacity_invariant (env : String) (ops : List Op) :
    (runOps env ops).rows.length ≤ MAX_ENTRIES ∧
    (∀ t now, (jsTrim t).length ≠ 0 → isForbidden t = false →
      ((recordSearch (runOps env ops) t now).1.rows).Perm
        ((sortRanked (upsert (runOps env ops) t now).rows).take MAX_ENTRIES) ∧
      (∀ r ∈ (recordSearch (runOps env ops) t now).1.rows,
       ∀ e ∈ (upsert (runOps env ops) t now).rows,
        e ∉ (recordSearch (runOps env ops) t now).1.rows → rankBefore e r = false)) := by
  refine ⟨runOps_length env ops, ?_⟩
  intro t now h1 h2
  have hinv : Inv (upsert (runOps env ops) t now) := inv_upsert (inv_runOps env ops) t now
  have hrec : (recordSearch (runOps env ops) t now).1 =
      cleanupOldEntries (upsert (runOps env ops) t now) := by
    unfold recordSearch
    rw [if_neg (by simpa using h1), if_neg (by simp [h2])]
  have hperm := cleanupOldEntries_perm hinv.ids_nodup
  rw [hrec]
  refine ⟨hperm, ?_⟩
  intro r hr e he hne
  set db' := upsert (runOps env ops) t now with hdb'
  have hsorted := sortRanked_pairwise db'.rows
  have hsplit : sortRanked db'.rows =
      (sortRanked db'.rows).take MAX_ENTRIES ++ (sortRanked db'.rows).drop MAX_ENTRIES :=
    (List.take_append_drop _ _).symm
  have hrtake : r ∈ (sortRanked db'.rows).take MAX_ENTRIES := hperm.mem_iff.mp hr
  have hetake : e ∉ (sortRanked db'.rows).take MAX_ENTRIES := fun hc => hne (hperm.mem_iff.mpr hc)
  have hedrop : e ∈ (sortRanked db'.rows).drop MAX_ENTRIES := by
    have : e ∈ sortRanked db'.rows := (sortRanked_perm db'.rows).mem_iff.mpr he
    rw [hsplit] at this
    rcases List.mem_append.mp this with h | h
    · exact absurd h hetake
    · exact h
  have := List.pairwise_append.mp (hsplit ▸ hsorted)
  exact this.2.2 r hrtake e hedrop



/-- Witness for `capacity_invariant` at a concrete run. -/
theorem capacity_invariant_witness :
    (runOps "admin123" [.record "电影" 1]).rows.length ≤ MAX_ENTRIES ∧
    ((recordSearch (runOps "admin123" [.record "电影" 1]) "游戏" 2).1.rows).Perm
      ((sortRanked (upsert (runOps "admin123" [.record "电影" 1]) "游戏" 2).rows).take
        MAX_ENTRIES) :=
  ⟨(capacity_invariant "admin123" [.record "电影" 1]).1,
   ((capacity_invariant "admin123" [.record "电影" 1]).2 "游戏" 2
      (by decide) (by decide)).1⟩

/-- **C2** (counterexample). Two stores holding the same two records —
equal scores, equal last-seen times — are listed in opposite orders
depending only on insertion order, so the term string does not break the
tie: rows tying on both ranking keys keep table order. -/
theorem ranking_term_tiebreak_counterexample :
    getHotSearches (runOps "admin123" [.record "b" 5, .record "a" 5]) 10 =
      [⟨"b", 1, 5, 5⟩, ⟨"a", 1, 5, 5⟩] ∧
    getHotSearches (runOps "admin123" [.record "a" 5, .record "b" 5]) 10 =
      [⟨"a", 1, 5, 5⟩, ⟨"b", 1, 5, 5⟩] := by
  decide

/-- **C2** (amended). Listing is deterministic and returns records sorted
by descending score with ties broken by descending last-seen time; rows
tying on both keys appear in rowid (insertion) order, not in term order. -/
theorem ranking_order_amended (db : DB) (limit : Int) :
    (getHotSearches db limit).Pairwise
      (fun a b => b.score < a.score ∨ (a.score = b.score ∧ b.lastSearched ≤ a.lastSearched)) :=
  getHotSearches_pairwise db limit

/-- **C3.** Behavioural parity between the durable backend and the
in-memory fallback fails: recording then listing one accepted term
returns that record on the durable backend but `[]` on the fallback
(whose prepared-statement closures throw and whose `prepare()` supplies
no `all`), and an authorised delete succeeds on the durable backend but
returns the generic failure on the fallback. -/
theorem fallback_parity_bug :
    getHotSearches (recordSearch emptyDB "a" 1).1 10 = [⟨"a", 1, 1, 1⟩] ∧
    fbRecordSearch fbEmpty "a" 1 = (fbEmpty, .resolved) ∧
    fbGetHotSearches (fbRecordSearch fbEmpty "a" 1).1 10 = [] ∧
    deleteHotSearch (recordSearch emptyDB "a" 1).1 "a" "admin123" "admin123" =
      (⟨[], 2⟩, ⟨true, "热搜词 \"a\" 已删除"⟩) ∧
    fbDeleteHotSearch (fbRecordSearch fbEmpty "a" 1).1 "a" "admin123" "admin123" =
      ((fbRecordSearch fbEmpty "a" 1).1, ⟨false, "删除失败"⟩) := by
  decide



theorem recordSearch_empty (term : String) (t : Nat)
    (h1 : (jsTrim term).length ≠ 0) (h2 : isForbidden term = false) :
    recordSearch emptyDB term t = (⟨[⟨1, term, 1, t, t⟩], 2⟩, .resolved) := by
  unfold recordSearch
  rw [if_neg (by simpa using h1), if_neg (by simp [h2])]
  have hup : upsert emptyDB term t = ⟨[⟨1, term, 1, t, t⟩], 2⟩ := by
    unfold upsert
    rw [if_neg (by simp [emptyDB])]
    rfl
  rw [hup]
  unfold cleanupOldEntries
  simp [sortRanked, insertRanked, MAX_ENTRIES]

/-- **C4.** Accepted recordings count: recording the same (non-empty,
non-forbidden) term at times `t :: ts`, starting from the empty store and
with no other intervening operation, leaves exactly one record for it,
with score equal to the number of recordings, `lastSeenAt` equal to the
time of the last call and `createdAt` equal to the time of the first. -/
theorem score_counts_recordings (term : String) (t : Nat) (ts : List Nat)
    (h1 : (jsTrim term).length ≠ 0) (h2 : isForbidden term = false) :
    recordMany emptyDB term (t :: ts) =
      ⟨[⟨1, term, (t :: ts).length, (t :: ts).getLast (List.cons_ne_nil t ts), t⟩], 2⟩ := by
  have hfirst := recordSearch_empty term t h1 h2
  show recordMany (recordSearch emptyDB term t).1 term ts = _
  rw [hfirst]
  rw [recordMany_singleton 1 2 1 t t term ts h1 h2]
  rw [← lastTime_eq_getLast]
  simp [Nat.add_comm]

/-- Witness for `score_counts_recordings`. -/
theorem score_counts_recordings_witness :
    recordMany emptyDB "电影" [1, 2, 3] =
      ⟨[⟨1, "电影", [(1 : Nat), 2, 3].length, [(1 : Nat), 2, 3].getLast (List.cons_ne_nil 1 [2, 3]), 1⟩], 2⟩ :=
  score_counts_recordings "电影" 1 [2, 3] (by decide) (by decide)



theorem mem_getStatsOk_topTerms {db : DB} {it : HotSearchItem}
    (h : it ∈ (getStatsOk db).topTerms) : ∃ r ∈ db.rows, it = r.toItem := by
  have h' : it ∈ ((sortRanked db.rows).take 10).map Row.toItem := h
  rcases List.mem_map.mp h' with ⟨r, hr, rfl⟩
  have hr' : r ∈ sortRanked db.rows := (List.take_sublist _ _).mem hr
  exact ⟨r, (sortRanked_perm db.rows).mem_iff.mp hr', rfl⟩

/-- **C5.** Content filter: recording a deny-listed term is a silent
no-op — the promise resolves (success), the store is untouched — and no
such term ever appears in `getHotSearches` or `getStats` output of any
reachable store. -/
theorem forbidden_terms_invisible (term : String) (h : isForbidden term = true) :
    (∀ db now, recordSearch db term now = (db, .resolved)) ∧
    (∀ env ops limit it, it ∈ getHotSearches (runOps env ops) limit → it.term ≠ term) ∧
    (∀ env ops it, it ∈ (getStatsOk (runOps env ops)).topTerms → it.term ≠ term) := by
  refine ⟨?_, ?_, ?_⟩
  · intro db now
    unfold recordSearch
    rw [h]
    split <;> rfl
  · intro env ops limit it hit hEq
    rcases mem_getHotSearches hit with ⟨r, hr, rfl⟩
    have hforb := stored_not_forbidden env ops r hr
    rw [show r.toItem.term = r.term from rfl] at hEq
    rw [hEq, h] at hforb
    exact Bool.true_eq_false.mp hforb
  · intro env ops it hit hEq
    rcases mem_getStatsOk_topTerms hit with ⟨r, hr, rfl⟩
    have hforb := stored_not_forbidden env ops r hr
    rw [show r.toItem.term = r.term from rfl] at hEq
    rw [hEq, h] at hforb
    exact Bool.true_eq_false.mp hforb

/-- Witness for `forbidden_terms_invisible`. -/
theorem forbidden_terms_invisible_witness :
    isForbidden "fuck" = true ∧
    recordSearch emptyDB "fuck" 7 = (emptyDB, .resolved) :=
  ⟨by decide, (forbidden_terms_invisible "fuck" (by decide)).1 emptyDB 7⟩

/-- **C6** (counterexample). `clearHotSearches` does not return the count
of removed records: two stores with different record counts (1 and 2)
yield the identical result object `{ success: true, message: "热搜记录已清除" }`. -/
theorem clearAll_count_counterexample :
    (clearHotSearches (runOps "admin123" [.record "a" 1]) "admin123" "admin123").2 =
      (clearHotSearches (runOps "admin123" [.record "a" 1, .record "b" 2]) "admin123"
        "admin123").2 ∧
    (runOps "admin123" [.record "a" 1]).rows.length = 1 ∧
    (runOps "admin123" [.record "a" 1, .record "b" 2]).rows.length = 2 := by
  decide

/-- **C6** (amended). `clearHotSearches` with the correct credential
removes all records — the store is empty afterwards — and returns a fixed
success result; it does not report the removed count. -/
theorem clearAll_amended (db : DB) (env : String) :
    clearHotSearches db env env = (⟨[], db.nextId⟩, ⟨true, "热搜记录已清除"⟩) := by
  unfold clearHotSearches
  rw [if_neg (by simp)]

/-- **C7.** A wrong credential makes `deleteHotSearch` return the
authorisation failure `{ success: false, message: "密码错误" }`, leaves the
store unchanged, and that result is distinguishable from both the generic
failure and the not-found result. -/
theorem wrong_credential_auth_error (db : DB) (term pw env : String) (h : pw ≠ env) :
    deleteHotSearch db term pw env = (db, ⟨false, "密码错误"⟩) ∧
    (OpResult.mk false "密码错误" ≠ OpResult.mk false "删除失败") ∧
    (OpResult.mk false "密码错误" ≠ OpResult.mk false "热搜词不存在") := by
  refine ⟨?_, by decide, by decide⟩
  unfold deleteHotSearch
  rw [if_pos (by simpa using h)]

/-- Witness for `wrong_credential_auth_error`. -/
theorem wrong_credential_auth_error_witness :
    deleteHotSearch emptyDB "x" "guess" "admin123" = (emptyDB, ⟨false, "密码错误"⟩) :=
  (wrong_credential_auth_error emptyDB "x" "guess" "admin123" (by decide)).1



/-- **C8** (counterexample). A negative limit does not yield an empty
sequence: `Math.min(-1, 50) = -1` reaches SQLite's `LIMIT`, where a
negative limit means "no limit", so every stored record is returned. -/
theorem negative_limit_counterexample :
    getHotSearches (runOps "admin123" [.record "a" 1]) (-1) = [⟨"a", 1, 1, 1⟩] ∧
    ([⟨"a", 1, 1, 1⟩] : List HotSearchItem) ≠ [] := by
  decide

/-- **C8** (amended). The limit is capped above at `MAX_ENTRIES` and the
result of `getHotSearches` on a reachable store never exceeds
`MAX_ENTRIES` records; a limit of `0` yields the empty sequence; a
negative limit is passed through to SQLite's `LIMIT`, which treats it as
unlimited and returns the whole ranked table. -/
theorem limit_clamping_amended (env : String) (ops : List Op) (limit : Int) :
    (getHotSearches (runOps env ops) limit).length ≤ MAX_ENTRIES ∧
    getHotSearches (runOps env ops) 0 = [] ∧
    (limit < 0 → getHotSearches (runOps env ops) limit =
      (sortRanked (runOps env ops).rows).map Row.toItem) := by
  refine ⟨length_getHotSearches_le _ _ (runOps_length env ops), ?_, ?_⟩
  · unfold getHotSearches sqliteLimit
    norm_num
  · intro hneg
    unfold getHotSearches sqliteLimit
    rw [if_pos (lt_of_le_of_lt (min_le_left _ _) hneg)]

/-- Witness for `limit_clamping_amended`. -/
theorem limit_clamping_amended_witness :
    (getHotSearches (runOps "admin123" [.record "a" 1]) (-1)).length ≤ MAX_ENTRIES ∧
    getHotSearches (runOps "admin123" [.record "a" 1]) 0 = [] ∧
    getHotSearches (runOps "admin123" [.record "a" 1]) (-1) =
      (sortRanked (runOps "admin123" [.record "a" 1]).rows).map Row.toItem :=
  ⟨(limit_clamping_amended "admin123" [.record "a" 1] (-1)).1,
   (limit_clamping_amended "admin123" [.record "a" 1] (-1)).2.1,
   (limit_clamping_amended "admin123" [.record "a" 1] (-1)).2.2 (by decide)⟩

/-- **C9** (counterexample). A whitespace-only term is not rejected with a
`ValidationError`: `recordSearch` resolves successfully (a silent no-op)
and the store is unchanged. -/
theorem empty_term_counterexample :
    recordSearch emptyDB "   " 0 = (emptyDB, .resolved) ∧
    RecOutcome.resolved ≠ RecOutcome.rejected "ValidationError" := by
  decide

/-- **C9** (amended). A term whose trimmed length is 0 makes
`recordSearch` return silently with success before touching storage: no
backend operation runs and the store is unchanged; no error is signalled
to the caller. -/
theorem empty_term_noop_amended (db : DB) (term : String) (now : Nat)
    (h : (jsTrim term).length = 0) :
    recordSearch db term now = (db, .resolved) := by
  unfold recordSearch
  rw [if_pos (by simpa using h)]

/-- Witness for `empty_term_noop_amended`. -/
theorem empty_term_noop_amended_witness :
    recordSearch emptyDB "\t \n" 3 = (emptyDB, .resolved) :=
  empty_term_noop_amended emptyDB "\t \n" 3 (by decide)

/-- **C10.** `getStats` never propagates a backend failure: if either
backend read throws, it returns `{ total: 0, topTerms: [] }`; and when
the count query yields no row, `total` defaults to `0`. -/
theorem getStats_swallows_failures (countRes : Except String (Option Nat))
    (topRes : Except String (List Row)) :
    (((∃ e, countRes = .error e) ∨ (∃ e, topRes = .error e)) →
      getStats countRes topRes = ⟨0, []⟩) ∧
    (∀ rows, (getStats (.ok none) (.ok rows)).total = 0) := by
  constructor
  · rintro (⟨e, rfl⟩ | ⟨e, rfl⟩)
    · rfl
    · cases countRes <;> rfl
  · intro rows
    rfl

/-- Witness for `getStats_swallows_failures`. -/
theorem getStats_swallows_failures_witness :
    getStats (.error "SQLITE_IOERR") (.ok []) = ⟨0, []⟩ ∧
    (getStats (.ok none) (.ok [⟨1, "a", 1, 1, 1⟩])).total = 0 :=
  ⟨(getStats_swallows_failures (.error "SQLITE_IOERR") (.ok [])).1 (Or.inl ⟨_, rfl⟩),
   (getStats_swallows_failures (.ok none) (.ok [⟨1, "a", 1, 1, 1⟩])).2 [⟨1, "a", 1, 1, 1⟩]⟩

end HotSearch
